import Mathlib

/-!
Verification development for `skimage/restoration/uft.py` (unitary Fourier
transforms and impulse-response-to-transfer-function conversion).

The embedding models N-dimensional arrays as a shape (a list of axis extents)
together with a total valuation on index lists; only values at in-bounds
indices are meaningful.  The external FFT collaborator (`np.fft.fftn`,
`ifftn`, `rfftn`, `irfftn`) is modelled by the mathematical discrete Fourier
transform over the trailing axes, written in the separable (axis-by-axis)
form that `numpy` itself uses, with the standard sign convention
(forward kernel `exp(-2*pi*i*j*k/n)`); its axis bookkeeping (axis
normalization errors, empty axis lists, the compact Hermitian output of the
real transforms, clipped slice assignment with right-aligned broadcasting,
and the cast of complex data to `float64` buffers, which keeps the real
part) is modelled explicitly.
-/

open Finset ComplexConjugate

noncomputable section

/-- Forward primitive root `exp(-2*pi*I/n)`: the base of the kernel of the
unnormalized forward DFT used by the external FFT collaborator. -/
def wroot (n : ℕ) : ℂ :=
  Complex.exp (-(2 * (Real.pi : ℂ) * Complex.I / (n : ℂ)))

/-- Inverse primitive root `exp(2*pi*I/n)`, base of the inverse DFT kernel. -/
def iwroot (n : ℕ) : ℂ :=
  Complex.exp (2 * (Real.pi : ℂ) * Complex.I / (n : ℂ))

/-- An index into an N-dimensional array: one coordinate per axis. -/
abbrev Idx := List ℕ

/-- A shape: the list of axis extents of an N-dimensional array. -/
abbrev Shape := List ℕ

/-- Unnormalized multidimensional DFT over all axes of `s`, in separable
form: transform the first axis, recurse on the remaining axes, exactly as
`np.fft.fftn` loops a 1-D FFT over its axis list.  The value at output
index `ks` sums `x` against the forward kernel. -/
def dftRec : Shape → (Idx → ℂ) → Idx → ℂ
  | [], x, _ => x []
  | n :: ns, x, ks =>
      ∑ j in Finset.range n,
        wroot n ^ (j * ks.headI) * dftRec ns (fun js => x (j :: js)) ks.tail

/-- Unnormalized (in the `numpy` sense: a `1/n` factor per axis)
multidimensional inverse DFT over all axes of `s`, in separable form,
exactly as `np.fft.ifftn` loops a 1-D inverse FFT over its axis list. -/
def idftRec : Shape → (Idx → ℂ) → Idx → ℂ
  | [], x, _ => x []
  | n :: ns, x, js =>
      (n : ℂ)⁻¹ * ∑ k in Finset.range n,
        iwroot n ^ (js.headI * k) * idftRec ns (fun ks => x (k :: ks)) js.tail

/-- Sum of all entries of an array of shape `s` (used to state the DC
coefficient property). -/
def sumAll : Shape → (Idx → ℂ) → ℂ
  | [], x => x []
  | n :: ns, x => ∑ j in Finset.range n, sumAll ns (fun js => x (j :: js))

/-- A dense N-dimensional array: a shape and a total valuation on index
lists.  Only values at in-bounds indices are meaningful. -/
structure NDArray where
  shape : Shape
  val : Idx → ℂ

/-- Boolean in-bounds check: the index has one coordinate per axis and each
coordinate is below the corresponding extent. -/
def inBoundsB : Idx → Shape → Bool
  | [], [] => true
  | i :: irest, n :: ns => decide (i < n) && inBoundsB irest ns
  | _, _ => false

/-- Propositional in-bounds check. -/
def inBounds (idx : Idx) (s : Shape) : Prop := inBoundsB idx s = true

/-- Python list slicing `l[start:]` (negative `start` counts from the end,
clipped at the ends), used to model `inarray.shape[-dim:]`. -/
def pySliceFrom (l : List ℕ) (start : ℤ) : List ℕ :=
  if start < 0 then l.drop (l.length - (-start).toNat) else l.drop start.toNat

/-- Model of `np.fft.fftn(a, axes=range(-d, 0))` for `0 ≤ d ≤ rank`: the
leading `rank - d` axes are batch axes iterated unchanged, the trailing `d`
axes are transformed.  (`d = 0` means an empty axis list: `numpy` performs
no transform at all and returns the array.) -/
def fftnLast (a : NDArray) (d : ℕ) : NDArray where
  shape := a.shape
  val := fun idx =>
    dftRec (a.shape.drop (a.shape.length - d))
      (fun c => a.val (idx.take (a.shape.length - d) ++ c))
      (idx.drop (a.shape.length - d))

/-- Model of `np.fft.ifftn(a, axes=range(-d, 0))`, the inverse companion of
`fftnLast`. -/
def ifftnLast (a : NDArray) (d : ℕ) : NDArray where
  shape := a.shape
  val := fun idx =>
    idftRec (a.shape.drop (a.shape.length - d))
      (fun c => a.val (idx.take (a.shape.length - d) ++ c))
      (idx.drop (a.shape.length - d))

/-- Pointwise real part of an array, re-embedded in `ℂ`: models the cast of
complex data to a `float64` buffer (`numpy` keeps the real part and drops
the imaginary part). -/
def reCast (a : NDArray) : NDArray where
  shape := a.shape
  val := fun idx => ((a.val idx).re : ℂ)

/-- Output shape of the compact Hermitian real transform: the last axis of
length `n` is shortened to `n / 2 + 1`. -/
def rfftShape (s : Shape) : Shape := s.dropLast ++ [s.getLastD 0 / 2 + 1]

/-- Model of `np.fft.rfftn(a, axes=range(-d, 0))` for `0 < d ≤ rank`: the
input is cast to real, the values are those of the full DFT (computed with
the full last-axis extent), and only the non-redundant half of the last
axis, of length `n / 2 + 1`, is kept in the output shape. -/
def rfftnLast (a : NDArray) (d : ℕ) : NDArray where
  shape := rfftShape a.shape
  val := (fftnLast (reCast a) d).val

/-- Errors raised by the external array/FFT collaborator. -/
inductive UftErr where
  | axisOutOfBounds
  | emptyAxes
  | tooManyIndices
  | broadcastMismatch
  | lenMismatch
  deriving DecidableEq

/-- An `Except` value is a success. -/
def okP {α : Type} (e : Except UftErr α) : Prop := ∃ y, e = Except.ok y

/-- Model of `ufftn` (uft.py line 82-85): resolve the default `dim`, call
`np.fft.fftn` over the trailing `dim` axes (which fails iff the axis list
`range(-dim, 0)` reaches below the first axis, i.e. iff `dim > rank`;
a non-positive `dim` gives an empty axis list and no transform), then
divide by `sqrt(prod(inarray.shape[-dim:]))`. -/
def ufftn (a : NDArray) (dim : Option ℤ) : Except UftErr NDArray :=
  let d : ℤ := dim.getD a.shape.length
  if d > (a.shape.length : ℤ) then .error .axisOutOfBounds
  else .ok { shape := a.shape
             val := fun idx =>
               (fftnLast a d.toNat).val idx /
                 ((Real.sqrt ((pySliceFrom a.shape (-d)).prod : ℝ) : ℝ) : ℂ) }

/-- Model of `uifftn` (uft.py line 113-116): `np.fft.ifftn` over the
trailing `dim` axes, multiplied by `sqrt(prod(inarray.shape[-dim:]))`. -/
def uifftn (a : NDArray) (dim : Option ℤ) : Except UftErr NDArray :=
  let d : ℤ := dim.getD a.shape.length
  if d > (a.shape.length : ℤ) then .error .axisOutOfBounds
  else .ok { shape := a.shape
             val := fun idx =>
               (ifftnLast a d.toNat).val idx *
                 ((Real.sqrt ((pySliceFrom a.shape (-d)).prod : ℝ) : ℝ) : ℂ) }

/-- Model of `urfftn` (uft.py line 153-156): `np.fft.rfftn` over the
trailing `dim` axes (which requires a non-empty axis list, so fails for
`dim ≤ 0`, and fails for `dim > rank` like `fftn`), divided by
`sqrt(prod(inarray.shape[-dim:]))` (the scale uses the input shape with
the full last-axis extent). -/
def urfftn (a : NDArray) (dim : Option ℤ) : Except UftErr NDArray :=
  let d : ℤ := dim.getD a.shape.length
  if d > (a.shape.length : ℤ) then .error .axisOutOfBounds
  else if d ≤ 0 then .error .emptyAxes
  else .ok { shape := rfftShape a.shape
             val := fun idx =>
               (rfftnLast a d.toNat).val idx /
                 ((Real.sqrt ((pySliceFrom a.shape (-d)).prod : ℝ) : ℝ) : ℂ) }

/-- Model of `np.fft.irfftn(a, s, axes=range(-d, 0))` for `0 < d ≤ rank`:
the compact spectrum is extended along the last axis by Hermitian mirror
symmetry and inverted; the output last-axis extent is taken from `s` when
given and defaults to `(m - 1) * 2` (the even-length assumption). -/
def irfftnLast (a : NDArray) (d : ℕ) (sh : Option Shape) : NDArray :=
  let nb := a.shape.length - d
  let coreIn := a.shape.drop nb
  let m := coreIn.getLastD 0
  let coreOut := match sh with
    | some s => s
    | none => coreIn.dropLast ++ [(m - 1) * 2]
  let L := coreOut.getLastD 0
  { shape := a.shape.take nb ++ coreOut
    val := fun idx =>
      idftRec coreOut
        (fun ks =>
          let kl := ks.getLastD 0
          if kl < m then a.val (idx.take nb ++ ks)
          else conj (a.val (idx.take nb ++ (ks.dropLast ++ [L - kl]))))
        (idx.drop nb) }

/-- Model of `uirfftn` (uft.py line 197-200): `np.fft.irfftn` over the
trailing `dim` axes (fails for `dim > rank`; fails for `dim ≤ 0`, since the
real inverse always consumes `axes[-1]`; fails when an explicit `shape` is
given whose length differs from the axis count), multiplied by
`sqrt(prod(outarray.shape[-dim:]))` (the scale uses the output shape). -/
def uirfftn (a : NDArray) (dim : Option ℤ) (sh : Option Shape) :
    Except UftErr NDArray :=
  let d : ℤ := dim.getD a.shape.length
  if d > (a.shape.length : ℤ) then .error .axisOutOfBounds
  else if d ≤ 0 then .error .emptyAxes
  else if (sh.map List.length).getD d.toNat ≠ d.toNat then .error .lenMismatch
  else
    let out := irfftnLast a d.toNat sh
    .ok { shape := out.shape
          val := fun idx =>
            out.val idx *
              ((Real.sqrt ((pySliceFrom out.shape (-d)).prod : ℝ) : ℝ) : ℂ) }

/-- Model of `ufft2` (uft.py line 231): `ufftn` on the last two axes. -/
def ufft2 (a : NDArray) : Except UftErr NDArray := ufftn a (some 2)

/-- Model of `uifft2` (uft.py line 262): `uifftn` on the last two axes. -/
def uifft2 (a : NDArray) : Except UftErr NDArray := uifftn a (some 2)

/-- Model of `urfft2` (uft.py line 295): `urfftn` on the last two axes. -/
def urfft2 (a : NDArray) : Except UftErr NDArray := urfftn a (some 2)

/-- Model of `uirfft2` (uft.py line 328): `uirfftn` on the last two axes. -/
def uirfft2 (a : NDArray) (sh : Option Shape) : Except UftErr NDArray :=
  uirfftn a (some 2) sh

/-- Pointwise squared modulus `np.abs(a)**2`, re-embedded in `ℂ`. -/
def absSq (a : NDArray) : NDArray where
  shape := a.shape
  val := fun idx => (((Complex.abs (a.val idx)) ^ 2 : ℝ) : ℂ)

/-- Model of `np.sum(a, axis=-1)`: collapse the last axis (the summation
extent is the last axis length; the model assumes a non-empty shape with
positive extents, as `numpy` errors on rank-0 input here). -/
def sumLast (a : NDArray) : NDArray where
  shape := a.shape.dropLast
  val := fun idx => ∑ i in Finset.range (a.shape.getLastD 0), a.val (idx ++ [i])

/-- Model of `a[..., i]`: fix the last coordinate. -/
def indexLast (a : NDArray) (i : ℕ) : NDArray where
  shape := a.shape.dropLast
  val := fun idx => a.val (idx ++ [i])

/-- Model of `image_quad_norm` (uft.py line 354-359): if the lengths of the
last two axes differ, return `2 * sum(sum(abs(a)**2, -1), -1)
- sum(abs(a[..., 0])**2, -1)`, else the plain double sum.  The model, like
the code, requires rank at least 2 and positive extents to be meaningful. -/
def image_quad_norm (a : NDArray) : NDArray :=
  if a.shape.getLastD 0 ≠ a.shape.dropLast.getLastD 0 then
    { shape := (sumLast (sumLast (absSq a))).shape
      val := fun idx =>
        2 * (sumLast (sumLast (absSq a))).val idx -
          (sumLast (absSq (indexLast a 0))).val idx }
  else sumLast (sumLast (absSq a))

/-- The region selected by `irpadded[tuple(slice(0, s) for s in src)]` in a
target of shape `t`: each named axis is clipped to `min s t`, the remaining
axes are taken whole. -/
def sliceRegion (s t : Shape) : Shape := List.zipWith min s t ++ t.drop s.length

/-- numpy broadcast compatibility of a source shape against an assignment
region, right-aligned: each source extent must equal the aligned region
extent or be 1. -/
def broadcastOK (src region : Shape) : Bool :=
  decide (src.length ≤ region.length) &&
    (List.zipWith (fun a b => a == b || a == 1) src
      (region.drop (region.length - src.length))).all id

/-- Source index corresponding to a region index under right-aligned
broadcasting: length-1 source axes repeat their single entry. -/
def broadcastSrcIdx (src : Shape) (idx : Idx) : Idx :=
  List.zipWith (fun sp ip => if sp = 1 then 0 else ip) src
    (idx.drop (idx.length - src.length))

/-- Model of `irpadded = np.zeros(shape)` followed by
`irpadded[tuple(slice(0, s) for s in imp.shape)] = imp` (uft.py line
413-414): allocate a real (`float64`) zero buffer of shape exactly `target`
(no batch prefixing), then assign the impulse response into the origin
corner.  Fails with "too many indices" when the impulse response has more
axes than the target, and with a broadcast error when its extents do not
fit the (clipped) slice region.  The assignment casts to `float64`,
keeping the real part of complex data. -/
def padToCorner (imp : NDArray) (target : Shape) : Except UftErr NDArray :=
  if imp.shape.length > target.length then .error .tooManyIndices
  else if ¬ broadcastOK imp.shape (sliceRegion imp.shape target) then
    .error .broadcastMismatch
  else .ok { shape := target
             val := fun idx =>
               if inBoundsB idx (sliceRegion imp.shape target) then
                 (((imp.val (broadcastSrcIdx imp.shape idx)).re : ℝ) : ℂ)
               else 0 }

/-- Model of `np.roll(a, shift=-m, axis)`: the value at an index is read
from the same index with the `axis` coordinate advanced by `m` modulo the
axis extent. -/
def rollAxis (a : NDArray) (axis m : ℕ) : NDArray where
  shape := a.shape
  val := fun idx =>
    a.val (idx.set axis ((idx.getD axis 0 + m) % a.shape.getD axis 0))

/-- Model of the roll loop of `ir2tf` (uft.py line 417-421): for every axis
of the impulse response with `axis >= imp.ndim - dim`, roll the padded
buffer by `-floor(axis_size / 2)` where `axis_size` is the impulse
response's extent on that axis. -/
def rollAll (a : NDArray) (impShape : Shape) (d : ℤ) : NDArray :=
  (List.range impShape.length).foldl
    (fun arr (axis : ℕ) =>
      if (axis : ℤ) ≥ (impShape.length : ℤ) - d then
        rollAxis arr axis (impShape.getD axis 0 / 2)
      else arr) a

/-- Resolution of the `dim` argument of `ir2tf` (uft.py line 410-411):
`if not dim: dim = imp_resp.ndim` treats both `None` and `0` as "use the
full rank" (unlike `ufftn`, which only replaces `None`). -/
def ir2tfDim (dim : Option ℤ) (ndim : ℕ) : ℤ :=
  match dim with
  | none => (ndim : ℤ)
  | some d => if d = 0 then (ndim : ℤ) else d

/-- Model of `ir2tf` (uft.py line 410-425): resolve `dim`, zero-pad the
impulse response into the origin corner of a buffer of shape `shape`, roll
each transform axis by minus half the original extent, and finish with the
UNNORMALIZED `np.fft.rfftn` (when `is_real`) or `np.fft.fftn` over the last
`dim` axes. -/
def ir2tf (imp : NDArray) (shape : Shape) (dim : Option ℤ) (is_real : Bool) :
    Except UftErr NDArray := do
  let d := ir2tfDim dim imp.shape.length
  let irpadded ← padToCorner imp shape
  let rolled := rollAll irpadded imp.shape d
  if is_real then
    if d > (rolled.shape.length : ℤ) then .error .axisOutOfBounds
    else if d ≤ 0 then .error .emptyAxes
    else .ok (rfftnLast rolled d.toNat)
  else
    if d > (rolled.shape.length : ℤ) then .error .axisOutOfBounds
    else .ok (fftnLast rolled d.toNat)

/-- Modelled from the spec: the spec's `TransferFunctionBuilder` algorithm,
whose step 3 reads "Apply `UnitaryTransform.forwardReal` if `isReal` else
`UnitaryTransform.forward`, over the last `dim` axes" — i.e. the same
padding and rolling as `ir2tf`, but finishing with the unitary (orthonormal)
transforms `urfftn`/`ufftn` instead of the unnormalized FFT. -/
def ir2tfSpec (imp : NDArray) (shape : Shape) (dim : Option ℤ)
    (is_real : Bool) : Except UftErr NDArray := do
  let d := ir2tfDim dim imp.shape.length
  let irpadded ← padToCorner imp shape
  let rolled := rollAll irpadded imp.shape d
  if is_real then urfftn rolled (some d) else ufftn rolled (some d)

/-- The index map realized by the roll loop in the non-batched case: each
coordinate is advanced by half the original impulse-response extent,
modulo the target extent. -/
def shiftIdx (j : Idx) (s t : Shape) : Idx :=
  List.zipWith (fun jp pr => (jp + pr.1 / 2) % pr.2) j (s.zip t)

/-- Composite reading-index map of a sequence of axis rolls: the roll along
`axis` by `-f axis` reads coordinate `axis` advanced by `f axis` modulo the
extent `s.getD axis 0`. -/
def rollIdxMap : List ℕ → (ℕ → ℕ) → Shape → Idx → Idx
  | [], _, _, j => j
  | axis :: L, f, s, j =>
      let j2 := rollIdxMap L f s j
      j2.set axis ((j2.getD axis 0 + f axis) % s.getD axis 0)

/-- A concrete 2×2 all-ones array (`np.ones((2, 2))`). -/
def ones22 : NDArray where
  shape := [2, 2]
  val := fun _ => 1

/-- A concrete 2×2×2 all-ones array (`np.ones((2, 2, 2))`). -/
def ones222 : NDArray where
  shape := [2, 2, 2]
  val := fun _ => 1

/-- A concrete 4×4 array with a single unit impulse at the origin. -/
def delta44 : NDArray where
  shape := [4, 4]
  val := fun idx => if idx = [0, 0] then 1 else 0

/-- A concrete 1×1 all-ones array. -/
def ones11 : NDArray where
  shape := [1, 1]
  val := fun _ => 1

end

theorem iwroot_ne_zero (n : ℕ) : iwroot n ≠ 0 := Complex.exp_ne_zero _

theorem wroot_eq_inv (n : ℕ) : wroot n = (iwroot n)⁻¹ := by
  rw [wroot, iwroot, ← Complex.exp_neg]

theorem conj_wroot (n : ℕ) : conj (wroot n) = iwroot n := by
  rw [wroot, iwroot, ← Complex.exp_conj]
  congr 1
  simp only [map_neg, map_div₀, map_mul, Complex.conj_I, Complex.conj_ofReal,
    map_ofNat, map_natCast]
  ring

theorem conj_wroot_pow (n m : ℕ) : conj (wroot n ^ m) = iwroot n ^ m := by
  rw [map_pow, conj_wroot]

theorem iwroot_prim {n : ℕ} (hn : n ≠ 0) : IsPrimitiveRoot (iwroot n) n :=
  Complex.isPrimitiveRoot_exp n hn

theorem wroot_two : wroot 2 = -1 := by
  have h : (-(2 * (Real.pi : ℂ) * Complex.I / ((2 : ℕ) : ℂ))) =
      -((Real.pi : ℂ) * Complex.I) := by
    push_cast
    ring
  rw [wroot, h, Complex.exp_neg, Complex.exp_pi_mul_I]
  norm_num

theorem wroot_pow_as_zpow (n : ℕ) (m : ℕ) :
    wroot n ^ m = iwroot n ^ (-(m : ℤ)) := by
  rw [wroot_eq_inv, inv_pow, ← zpow_natCast (iwroot n) m, ← zpow_neg]

theorem sum_iw_w {n a b : ℕ} (hn : 0 < n) (ha : a < n) (hb : b < n) :
    ∑ k in Finset.range n, iwroot n ^ (a * k) * wroot n ^ (b * k) =
      if a = b then (n : ℂ) else 0 := by
  have hz : iwroot n ≠ 0 := iwroot_ne_zero n
  have hterm : ∀ k, iwroot n ^ (a * k) * wroot n ^ (b * k) =
      (iwroot n ^ ((a : ℤ) - (b : ℤ))) ^ k := by
    intro k
    rw [wroot_pow_as_zpow, ← zpow_natCast (iwroot n) (a * k),
      ← zpow_add₀ hz, ← zpow_natCast (iwroot n ^ ((a : ℤ) - (b : ℤ))) k,
      ← zpow_mul]
    congr 1
    push_cast
    ring
  simp only [hterm]
  by_cases hab : a = b
  · subst hab
    simp
  · have hne1 : iwroot n ^ ((a : ℤ) - (b : ℤ)) ≠ 1 := by
      intro h1
      have hdvd : (n : ℤ) ∣ ((a : ℤ) - (b : ℤ)) :=
        ((iwroot_prim hn.ne').zpow_eq_one_iff_dvd _).mp h1
      have hdvd2 : n ∣ ((a : ℤ) - (b : ℤ)).natAbs := by
        have := Int.natAbs_dvd_natAbs.mpr hdvd
        simpa using this
      have hpos : 0 < ((a : ℤ) - (b : ℤ)).natAbs := by omega
      have := Nat.le_of_dvd hpos hdvd2
      omega
    rw [geom_sum_eq hne1]
    have hpow : (iwroot n ^ ((a : ℤ) - (b : ℤ))) ^ n = 1 := by
      rw [← zpow_natCast (iwroot n ^ ((a : ℤ) - (b : ℤ))) n, ← zpow_mul,
        mul_comm, zpow_mul, zpow_natCast, (iwroot_prim hn.ne').pow_eq_one,
        one_zpow]
    rw [hpow]
    simp [hab]

theorem wroot_pow_mod_neg {n k : ℕ} (hn : 0 < n) (hk : k < n) (j : ℕ) :
    wroot n ^ (j * ((n - k) % n)) = iwroot n ^ (j * k) := by
  have hz : iwroot n ≠ 0 := iwroot_ne_zero n
  rcases Nat.eq_zero_or_pos k with hk0 | hk1
  · subst hk0
    simp
  · have hmod : (n - k) % n = n - k := Nat.mod_eq_of_lt (by omega)
    rw [hmod, wroot_pow_as_zpow, ← zpow_natCast (iwroot n) (j * k)]
    have hsum : (-(((j * (n - k) : ℕ)) : ℤ)) = ((j * k : ℕ) : ℤ) - (j : ℤ) * n := by
      push_cast [Nat.cast_sub hk.le]
      ring
    rw [hsum, zpow_sub₀ hz]
    have hone : iwroot n ^ ((j : ℤ) * (n : ℤ)) = 1 := by
      rw [mul_comm, zpow_mul, zpow_natCast (iwroot n) n,
        (iwroot_prim hn.ne').pow_eq_one, one_zpow]
    rw [hone]
    simp

theorem inBounds_nil_nil : inBounds [] [] := rfl

theorem inBounds_cons {i n : ℕ} {ir : Idx} {ns : Shape} :
    inBounds (i :: ir) (n :: ns) ↔ i < n ∧ inBounds ir ns := by
  simp [inBounds, inBoundsB]

theorem inBounds_nil_right {k : Idx} : inBounds k [] ↔ k = [] := by
  cases k <;> simp [inBounds, inBoundsB]

theorem inBounds_nil_left {n : ℕ} {ns : Shape} : ¬ inBounds [] (n :: ns) := by
  simp [inBounds, inBoundsB]

theorem inBounds_length {idx : Idx} {s : Shape} (h : inBounds idx s) :
    idx.length = s.length := by
  induction idx generalizing s with
  | nil =>
    cases s with
    | nil => rfl
    | cons n ns => exact absurd h inBounds_nil_left
  | cons i ir ih =>
    cases s with
    | nil => simp [inBounds, inBoundsB] at h
    | cons n ns =>
      simp only [List.length_cons]
      exact congrArg Nat.succ (ih (inBounds_cons.mp h).2)

theorem inBounds_pos {idx : Idx} {s : Shape} (h : inBounds idx s) :
    ∀ t ∈ s, 0 < t := by
  induction s generalizing idx with
  | nil => simp
  | cons n ns ih =>
    cases idx with
    | nil => exact absurd h inBounds_nil_left
    | cons i ir =>
      obtain ⟨h1, h2⟩ := inBounds_cons.mp h
      intro t ht
      rcases List.mem_cons.mp ht with rfl | ht2
      · omega
      · exact ih h2 t ht2

theorem inBounds_drop {idx : Idx} {s : Shape} (m : ℕ) (h : inBounds idx s) :
    inBounds (idx.drop m) (s.drop m) := by
  induction m generalizing idx s with
  | zero => simpa using h
  | succ m ih =>
    cases idx with
    | nil =>
      cases s with
      | nil => exact inBounds_nil_nil
      | cons n ns => exact absurd h inBounds_nil_left
    | cons i ir =>
      cases s with
      | nil => simp [inBounds, inBoundsB] at h
      | cons n ns => exact ih (inBounds_cons.mp h).2

theorem dftRec_congr {s : Shape} {x y : Idx → ℂ}
    (h : ∀ j, inBounds j s → x j = y j) (k : Idx) :
    dftRec s x k = dftRec s y k := by
  induction s generalizing x y k with
  | nil => exact h [] inBounds_nil_nil
  | cons n ns ih =>
    simp only [dftRec]
    refine Finset.sum_congr rfl fun j hj => ?_
    rw [ih (fun js hjs =>
      h (j :: js) (inBounds_cons.mpr ⟨Finset.mem_range.mp hj, hjs⟩)) k.tail]

theorem dftRec_allzero (s : Shape) (x : Idx → ℂ) (m : ℕ) :
    dftRec s x (List.replicate m 0) = sumAll s x := by
  induction s generalizing x m with
  | nil => rfl
  | cons n ns ih =>
    simp only [dftRec, sumAll]
    refine Finset.sum_congr rfl fun j hj => ?_
    have h1 : (List.replicate m (0 : ℕ)).headI = 0 := by
      cases m <;> simp [List.replicate_succ]
    have h2 : (List.replicate m (0 : ℕ)).tail = List.replicate (m - 1) 0 := by
      cases m <;> simp [List.replicate_succ]
    rw [h1, h2, mul_zero, pow_zero, one_mul, ih]

theorem idftRec_cmul (s : Shape) (x : Idx → ℂ) (c : ℂ) (j : Idx) :
    idftRec s (fun k => c * x k) j = c * idftRec s x j := by
  induction s generalizing x j with
  | nil => rfl
  | cons n ns ih =>
    simp only [idftRec, ih]
    rw [Finset.mul_sum, Finset.mul_sum, Finset.mul_sum]
    exact Finset.sum_congr rfl fun k _ => by ring

theorem idftRec_sumF {ι : Type} (t : Finset ι) (s : Shape) (F : ι → Idx → ℂ)
    (j : Idx) :
    idftRec s (fun k => ∑ a in t, F a k) j = ∑ a in t, idftRec s (F a) j := by
  induction s generalizing F j with
  | nil => rfl
  | cons n ns ih =>
    simp only [idftRec, ih]
    rw [Finset.mul_sum]
    have h1 : ∀ k : ℕ,
        (n : ℂ)⁻¹ * (iwroot n ^ (j.headI * k) *
            ∑ a in t, idftRec ns (fun ks => F a (k :: ks)) j.tail) =
          ∑ a in t, (n : ℂ)⁻¹ * (iwroot n ^ (j.headI * k) *
            idftRec ns (fun ks => F a (k :: ks)) j.tail) := by
      intro k
      rw [Finset.mul_sum, Finset.mul_sum]
    rw [Finset.sum_congr rfl fun k _ => h1 k, Finset.sum_comm]
    refine Finset.sum_congr rfl fun a _ => ?_
    rw [Finset.mul_sum]

theorem idft_dft {s : Shape} (x : Idx → ℂ) {j : Idx} (hj : inBounds j s) :
    idftRec s (dftRec s x) j = x j := by
  induction s generalizing x j with
  | nil =>
    rw [inBounds_nil_right.mp hj]
    rfl
  | cons n ns ih =>
    obtain ⟨j0, js, rfl⟩ : ∃ j0 js, j = j0 :: js := by
      cases j with
      | nil => exact absurd hj inBounds_nil_left
      | cons a b => exact ⟨a, b, rfl⟩
    obtain ⟨hj0, hjs⟩ := inBounds_cons.mp hj
    have hn : 0 < n := Nat.pos_of_ne_zero (by omega)
    simp only [idftRec, List.headI_cons, List.tail_cons]
    have hinner : ∀ k : ℕ,
        idftRec ns (fun ks => dftRec (n :: ns) x (k :: ks)) js =
          ∑ j1 in Finset.range n,
            wroot n ^ (j1 * k) * x (j1 :: js) := by
      intro k
      simp only [dftRec, List.headI_cons, List.tail_cons]
      rw [idftRec_sumF (Finset.range n) ns
        (fun j1 ks => wroot n ^ (j1 * k) * dftRec ns (fun js2 => x (j1 :: js2)) ks) js]
      refine Finset.sum_congr rfl fun j1 _ => ?_
      rw [idftRec_cmul ns (dftRec ns (fun js2 => x (j1 :: js2))) (wroot n ^ (j1 * k)) js]
      rw [ih (fun js2 => x (j1 :: js2)) hjs]
    simp only [hinner]
    have hswap :
        ∑ k in Finset.range n, iwroot n ^ (j0 * k) *
            ∑ j1 in Finset.range n, wroot n ^ (j1 * k) * x (j1 :: js) =
          ∑ j1 in Finset.range n,
            (∑ k in Finset.range n, iwroot n ^ (j0 * k) * wroot n ^ (j1 * k)) *
              x (j1 :: js) := by
      rw [Finset.sum_congr rfl fun k _ => Finset.mul_sum _ _ _]
      rw [Finset.sum_comm]
      refine Finset.sum_congr rfl fun j1 _ => ?_
      rw [Finset.sum_mul]
      exact Finset.sum_congr rfl fun k _ => by ring
    rw [hswap]
    have hval : ∀ j1 ∈ Finset.range n,
        (∑ k in Finset.range n, iwroot n ^ (j0 * k) * wroot n ^ (j1 * k)) *
            x (j1 :: js) =
          (if j0 = j1 then (n : ℂ) else 0) * x (j1 :: js) := by
      intro j1 hj1
      rw [sum_iw_w hn hj0 (Finset.mem_range.mp hj1)]
    rw [Finset.sum_congr rfl hval]
    simp only [ite_mul, zero_mul]
    rw [Finset.sum_ite_eq (Finset.range n) j0 (fun j1 => (n : ℂ) * x (j1 :: js))]
    rw [if_pos (Finset.mem_range.mpr hj0)]
    rw [← mul_assoc, inv_mul_cancel₀ (by exact_mod_cast hn.ne' : (n : ℂ) ≠ 0),
      one_mul]

theorem take_append_exact {α : Type} (l1 l2 : List α) (m : ℕ)
    (h : l1.length = m) : (l1 ++ l2).take m = l1 := by
  subst h
  exact List.take_left l1 l2

theorem drop_append_exact {α : Type} (l1 l2 : List α) (m : ℕ)
    (h : l1.length = m) : (l1 ++ l2).drop m = l2 := by
  subst h
  exact List.drop_left l1 l2

theorem pySliceFrom_subset (l : List ℕ) (z : ℤ) : pySliceFrom l z ⊆ l := by
  unfold pySliceFrom
  split
  · exact List.drop_subset _ _
  · exact List.drop_subset _ _

theorem sliceProd_pos {idx : Idx} {s : Shape} (h : inBounds idx s) (z : ℤ) :
    0 < ((pySliceFrom s z).prod : ℝ) := by
  have hpos : 0 < (pySliceFrom s z).prod :=
    List.prod_pos fun t ht => inBounds_pos h t (pySliceFrom_subset s z ht)
  exact_mod_cast hpos

theorem sqrtSlice_ne_zero {idx : Idx} {s : Shape} (h : inBounds idx s)
    (z : ℤ) :
    ((Real.sqrt ((pySliceFrom s z).prod : ℝ) : ℝ) : ℂ) ≠ 0 := by
  rw [Complex.ofReal_ne_zero]
  exact (Real.sqrt_pos.mpr (sliceProd_pos h z)).ne'

/-- C8: for every array `x` of arbitrary rank and any `dim` on which
`ufftn` succeeds, `uifftn (ufftn x) = x` at every in-bounds index: the
unnormalized inverse FFT inverts the unnormalized forward FFT and the
`1/sqrt(N)` and `sqrt(N)` scalings cancel. -/
theorem ufftn_uifftn_roundtrip (a : NDArray) (dim : Option ℤ)
    (y z : NDArray) (hy : ufftn a dim = Except.ok y)
    (hz : uifftn y dim = Except.ok z) :
    z.shape = a.shape ∧ ∀ idx, inBounds idx a.shape → z.val idx = a.val idx := by
  simp only [ufftn] at hy
  split at hy
  · exact absurd hy (by simp)
  rw [Except.ok.injEq] at hy
  subst hy
  simp only [uifftn] at hz
  split at hz
  · exact absurd hz (by simp)
  rw [Except.ok.injEq] at hz
  subst hz
  refine ⟨rfl, fun idx hidx => ?_⟩
  set d : ℤ := dim.getD a.shape.length with hd
  set P : ℝ := ((pySliceFrom a.shape (-d)).prod : ℝ) with hP
  have hsq : ((Real.sqrt P : ℝ) : ℂ) ≠ 0 := sqrtSlice_ne_zero hidx (-d)
  set nb : ℕ := a.shape.length - d.toNat with hnb
  have hlen : idx.length = a.shape.length := inBounds_length hidx
  have htn : (idx.take nb).length = nb := by
    rw [List.length_take]
    omega
  simp only [ifftnLast, fftnLast]
  have hslice : ∀ c : Idx,
      dftRec (a.shape.drop nb)
          (fun c2 => a.val ((idx.take nb ++ c).take nb ++ c2))
          ((idx.take nb ++ c).drop nb) /
          ((Real.sqrt P : ℝ) : ℂ) =
        ((Real.sqrt P : ℝ) : ℂ)⁻¹ *
          dftRec (a.shape.drop nb)
            (fun c2 => a.val (idx.take nb ++ c2)) c := by
    intro c
    rw [take_append_exact _ _ _ htn, drop_append_exact _ _ _ htn,
      div_eq_mul_inv, mul_comm]
  calc idftRec (a.shape.drop nb)
        (fun c => dftRec (a.shape.drop nb)
            (fun c2 => a.val ((idx.take nb ++ c).take nb ++ c2))
            ((idx.take nb ++ c).drop nb) /
            ((Real.sqrt P : ℝ) : ℂ))
        (idx.drop nb) * ((Real.sqrt P : ℝ) : ℂ)
      = ((Real.sqrt P : ℝ) : ℂ)⁻¹ *
          idftRec (a.shape.drop nb)
            (dftRec (a.shape.drop nb) (fun c2 => a.val (idx.take nb ++ c2)))
            (idx.drop nb) * ((Real.sqrt P : ℝ) : ℂ) := by
        rw [funext hslice,
          idftRec_cmul (a.shape.drop nb)
            (dftRec (a.shape.drop nb) (fun c2 => a.val (idx.take nb ++ c2)))
            ((Real.sqrt P : ℝ) : ℂ)⁻¹ (idx.drop nb)]
    _ = a.val idx := by
        rw [idft_dft (fun c2 => a.val (idx.take nb ++ c2))
            (inBounds_drop nb hidx)]
        rw [List.take_append_drop]
        field_simp

/-- C8 witness at a concrete input. -/
theorem ufftn_uifftn_roundtrip_witness :
    ∃ y z, ufftn ones22 none = Except.ok y ∧ uifftn y none = Except.ok z ∧
      z.val [0, 0] = ones22.val [0, 0] := by
  refine ⟨_, _, rfl, rfl, ?_⟩
  exact (ufftn_uifftn_roundtrip ones22 none _ _ rfl rfl).2 [0, 0] rfl

theorem pySliceFrom_neg_eq (l : List ℕ) {d : ℤ} (h1 : 0 < d) :
    pySliceFrom l (-d) = l.drop (l.length - d.toNat) := by
  unfold pySliceFrom
  rw [if_pos (by omega : -d < 0), neg_neg]

/-- C7: for every array and valid `dim`, `ufftn` succeeds and returns the
external FFT over the last `dim` axes divided by the square root of the
product of the transformed axis lengths, with output shape equal to the
input shape; when `dim` covers all axes the zero-index (DC) coefficient
equals `sum(x) / sqrt(size)` (so on a constant array of total size `N` it
is `sum(x) / sqrt(N)`). -/
theorem ufftn_scaled_fft (a : NDArray) (d : ℤ) (h1 : 0 < d)
    (h2 : d ≤ (a.shape.length : ℤ)) :
    ∃ y, ufftn a (some d) = Except.ok y ∧ y.shape = a.shape ∧
      (∀ idx, y.val idx = (fftnLast a d.toNat).val idx /
        ((Real.sqrt (((a.shape.drop (a.shape.length - d.toNat)).prod : ℕ) : ℝ) : ℝ) : ℂ)) ∧
      (d = (a.shape.length : ℤ) →
        y.val (List.replicate a.shape.length 0) =
          sumAll a.shape a.val /
            ((Real.sqrt ((a.shape.prod : ℕ) : ℝ) : ℝ) : ℂ)) := by
  have hok : ufftn a (some d) = Except.ok
      { shape := a.shape
        val := fun idx => (fftnLast a d.toNat).val idx /
          ((Real.sqrt ((pySliceFrom a.shape (-d)).prod : ℝ) : ℝ) : ℂ) } := by
    simp only [ufftn, Option.getD_some]
    rw [if_neg (not_lt.mpr h2)]
  refine ⟨_, hok, rfl, fun idx => ?_, fun hdl => ?_⟩
  · rw [pySliceFrom_neg_eq a.shape h1]
  · have hdt : d.toNat = a.shape.length := by omega
    simp only [fftnLast, hdt, Nat.sub_self, List.drop_zero, List.take_zero,
      List.nil_append]
    rw [dftRec_allzero, pySliceFrom_neg_eq a.shape h1, hdt, Nat.sub_self,
      List.drop_zero]

/-- C7 witness at a concrete input (a constant array). -/
theorem ufftn_scaled_fft_witness :
    (0 : ℤ) < 2 ∧
      ∃ y, ufftn ones22 (some 2) = Except.ok y ∧
        y.val (List.replicate 2 0) =
          sumAll [2, 2] ones22.val /
            ((Real.sqrt ((([2, 2] : Shape).prod : ℕ) : ℝ) : ℝ) : ℂ) := by
  refine ⟨by norm_num, ?_⟩
  obtain ⟨y, hok, _, _, hdc⟩ :=
    ufftn_scaled_fft ones22 2 (by norm_num) (by norm_num [ones22])
  exact ⟨y, hok, hdc (by norm_num [ones22])⟩

/-- C5 (amended): the module performs no `dim` pre-validation of its own.
`ufftn` and `uifftn` succeed exactly when `dim ≤ rank` — including every
non-positive `dim`, for which the external FFT receives an empty axis list
and transforms nothing — while `urfftn` and `uirfftn` (with no explicit
output shape) succeed exactly when `0 < dim ≤ rank`, because the real
transforms always consume a last transform axis; all failures come from the
external FFT collaborator during the call. -/
theorem uft_dim_check (a : NDArray) (d : ℤ) :
    (okP (ufftn a (some d)) ↔ d ≤ (a.shape.length : ℤ)) ∧
    (okP (uifftn a (some d)) ↔ d ≤ (a.shape.length : ℤ)) ∧
    (okP (urfftn a (some d)) ↔ 0 < d ∧ d ≤ (a.shape.length : ℤ)) ∧
    (okP (uirfftn a (some d) none) ↔ 0 < d ∧ d ≤ (a.shape.length : ℤ)) := by
  refine ⟨?_, ?_, ?_, ?_⟩
  · simp only [ufftn, Option.getD_some]
    split
    · simp only [okP]
      constructor
      · rintro ⟨y, hy⟩
        exact absurd hy (by simp)
      · omega
    · simp only [okP]
      constructor
      · intro _
        omega
      · exact fun _ => ⟨_, rfl⟩
  · simp only [uifftn, Option.getD_some]
    split
    · simp only [okP]
      constructor
      · rintro ⟨y, hy⟩
        exact absurd hy (by simp)
      · omega
    · simp only [okP]
      constructor
      · intro _
        omega
      · exact fun _ => ⟨_, rfl⟩
  · simp only [urfftn, Option.getD_some]
    split
    · simp only [okP]
      constructor
      · rintro ⟨y, hy⟩
        exact absurd hy (by simp)
      · omega
    · split
      · simp only [okP]
        constructor
        · rintro ⟨y, hy⟩
          exact absurd hy (by simp)
        · omega
      · simp only [okP]
        constructor
        · intro _
          omega
        · exact fun _ => ⟨_, rfl⟩
  · simp only [uirfftn, Option.getD_some, Option.map_none', Option.getD_none]
    split
    · simp only [okP]
      constructor
      · rintro ⟨y, hy⟩
        exact absurd hy (by simp)
      · omega
    · split
      · simp only [okP]
        constructor
        · rintro ⟨y, hy⟩
          exact absurd hy (by simp)
        · omega
      · rw [if_neg (by simp)]
        simp only [okP]
        constructor
        · intro _
          omega
        · exact fun _ => ⟨_, rfl⟩

/-- C5 counterexample: with `dim = 0` (a non-positive dim), `ufftn` and
`uifftn` return a value instead of failing — the claimed InvalidDimension
error does not exist in the code. -/
theorem ufftn_dim_zero_ok :
    okP (ufftn ones22 (some 0)) ∧ okP (uifftn ones22 (some 0)) :=
  ⟨⟨_, rfl⟩, ⟨_, rfl⟩⟩

theorem getLastD_snoc (l : List ℕ) (a d : ℕ) : (l ++ [a]).getLastD d = a := by
  induction l generalizing d with
  | nil => rfl
  | cons b bs ih =>
    rw [List.cons_append]
    cases hbs : bs ++ [a] with
    | nil => exact absurd hbs (by simp)
    | cons c cs =>
      rw [List.getLastD_cons]
      rw [← hbs, ih b]

theorem dropLast_snoc (l : List ℕ) (a : ℕ) : (l ++ [a]).dropLast = l := by
  induction l with
  | nil => rfl
  | cons b bs ih =>
    rw [List.cons_append]
    cases hbs : bs ++ [a] with
    | nil => exact absurd hbs (by simp)
    | cons c cs =>
      rw [List.dropLast_cons₂, ← hbs, ih]

/-- Characterization of `image_quad_norm` on a shape with two image axes
(helper shared by several results). -/
theorem iqn_branches_aux (a : NDArray) (b : Shape) (n1 n2 : ℕ)
    (hs : a.shape = b ++ [n1, n2]) (hn1 : 0 < n1) (hn2 : 0 < n2) :
    (image_quad_norm a).shape = b ∧
    ∀ bidx : Idx,
      (n1 ≠ n2 → (image_quad_norm a).val bidx =
        2 * (∑ i in Finset.range n1, ∑ j in Finset.range n2,
            ((Complex.abs (a.val (bidx ++ [i, j])) ^ 2 : ℝ) : ℂ)) -
          ∑ i in Finset.range n1,
            ((Complex.abs (a.val (bidx ++ [i, 0])) ^ 2 : ℝ) : ℂ)) ∧
      (n1 = n2 → (image_quad_norm a).val bidx =
        ∑ i in Finset.range n1, ∑ j in Finset.range n2,
          ((Complex.abs (a.val (bidx ++ [i, j])) ^ 2 : ℝ) : ℂ)) := by
  have hsplit : b ++ [n1, n2] = (b ++ [n1]) ++ [n2] := by simp
  have hcond1 : a.shape.getLastD 0 = n2 := by
    rw [hs, hsplit, getLastD_snoc]
  have hcond2 : a.shape.dropLast.getLastD 0 = n1 := by
    rw [hs, hsplit, dropLast_snoc, getLastD_snoc]
  have h2s : (sumLast (sumLast (absSq a))).shape = b := by
    simp only [sumLast, absSq]
    rw [hs, hsplit, dropLast_snoc, dropLast_snoc]
  have hvalA : ∀ bidx : Idx, (sumLast (sumLast (absSq a))).val bidx =
      ∑ i in Finset.range n1, ∑ j in Finset.range n2,
        ((Complex.abs (a.val (bidx ++ [i, j])) ^ 2 : ℝ) : ℂ) := by
    intro bidx
    simp only [sumLast, absSq]
    rw [hcond1, hcond2]
    refine Finset.sum_congr rfl fun i _ => Finset.sum_congr rfl fun j _ => ?_
    rw [List.append_assoc]
    rfl
  have hvalB : ∀ bidx : Idx, (sumLast (absSq (indexLast a 0))).val bidx =
      ∑ i in Finset.range n1,
        ((Complex.abs (a.val (bidx ++ [i, 0])) ^ 2 : ℝ) : ℂ) := by
    intro bidx
    simp only [sumLast, absSq, indexLast]
    rw [hcond2]
    refine Finset.sum_congr rfl fun i _ => ?_
    rw [List.append_assoc]
    rfl
  refine ⟨?_, fun bidx => ⟨fun hne => ?_, fun heq => ?_⟩⟩
  · unfold image_quad_norm
    split
    · exact h2s
    · exact h2s
  · unfold image_quad_norm
    rw [if_pos (by rw [hcond1, hcond2]; exact fun h => hne h.symm)]
    dsimp only
    rw [hvalA bidx, hvalB bidx]
  · unfold image_quad_norm
    rw [if_neg (by rw [hcond1, hcond2]; exact fun h => h heq.symm)]
    exact hvalA bidx

/-- C6: `image_quad_norm` branches on the last two axis lengths; when they
differ it returns, per batch element, `2 * (sum of squared magnitudes over
the last two axes) - (sum of squared magnitudes of the index-0 slice along
the last axis)`; when they are equal it returns the plain double sum — in
both cases collapsing exactly the last two axes. -/
theorem image_quad_norm_branches (a : NDArray) (b : Shape) (n1 n2 : ℕ)
    (hs : a.shape = b ++ [n1, n2]) (hn1 : 0 < n1) (hn2 : 0 < n2) :
    (image_quad_norm a).shape = b ∧
    ∀ bidx : Idx,
      (n1 ≠ n2 → (image_quad_norm a).val bidx =
        2 * (∑ i in Finset.range n1, ∑ j in Finset.range n2,
            ((Complex.abs (a.val (bidx ++ [i, j])) ^ 2 : ℝ) : ℂ)) -
          ∑ i in Finset.range n1,
            ((Complex.abs (a.val (bidx ++ [i, 0])) ^ 2 : ℝ) : ℂ)) ∧
      (n1 = n2 → (image_quad_norm a).val bidx =
        ∑ i in Finset.range n1, ∑ j in Finset.range n2,
          ((Complex.abs (a.val (bidx ++ [i, j])) ^ 2 : ℝ) : ℂ)) :=
  iqn_branches_aux a b n1 n2 hs hn1 hn2

/-- C6 witness at a concrete input. -/
theorem image_quad_norm_branches_witness :
    (image_quad_norm { shape := [1, 2], val := fun _ => 1 : NDArray }).shape =
        ([] : Shape) ∧
      (image_quad_norm { shape := [1, 2], val := fun _ => 1 : NDArray }).val
          [] =
        2 * (∑ i in Finset.range 1, ∑ j in Finset.range 2,
            ((Complex.abs ((1 : ℂ)) ^ 2 : ℝ) : ℂ)) -
          ∑ i in Finset.range 1, ((Complex.abs ((1 : ℂ)) ^ 2 : ℝ) : ℂ) := by
  obtain ⟨hshape, hval⟩ :=
    image_quad_norm_branches { shape := [1, 2], val := fun _ => 1 : NDArray }
      [] 1 2 rfl (by norm_num) (by norm_num)
  exact ⟨hshape, (hval []).1 (by norm_num)⟩

theorem dftRec_two (n m : ℕ) (g : Idx → ℂ) (k1 k2 : ℕ) :
    dftRec [n, m] g [k1, k2] =
      ∑ j1 in Finset.range n, ∑ j2 in Finset.range m,
        wroot n ^ (j1 * k1) * wroot m ^ (j2 * k2) * g [j1, j2] := by
  simp only [dftRec, List.headI_cons, List.tail_cons]
  refine Finset.sum_congr rfl fun j1 _ => ?_
  rw [Finset.mul_sum]
  refine Finset.sum_congr rfl fun j2 _ => ?_
  ring

theorem dft2_conj_symm {n : ℕ} (hn : 0 < n) (g : Idx → ℂ)
    (hg : ∀ idx, (g idx).im = 0) (k1 k2 : ℕ) (hk1 : k1 < n) (hk2 : k2 < n) :
    dftRec [n, n] g [(n - k1) % n, (n - k2) % n] =
      conj (dftRec [n, n] g [k1, k2]) := by
  rw [dftRec_two, dftRec_two, map_sum]
  refine Finset.sum_congr rfl fun j1 _ => ?_
  rw [map_sum]
  refine Finset.sum_congr rfl fun j2 _ => ?_
  rw [map_mul, map_mul, conj_wroot_pow, conj_wroot_pow,
    wroot_pow_mod_neg hn hk1 j1, wroot_pow_mod_neg hn hk2 j2]
  congr 1
  exact (Complex.conj_eq_iff_im.mpr (hg _)).symm

theorem negMod_invol {n k : ℕ} (hn : 0 < n) (hk : k < n) :
    (n - (n - k) % n) % n = k := by
  rcases Nat.eq_zero_or_pos k with rfl | hk1
  · simp [Nat.mod_self]
  · rw [Nat.mod_eq_of_lt (by omega : n - k < n), Nat.sub_sub_self hk.le]
    exact Nat.mod_eq_of_lt hk

theorem odd_compact_sum {n : ℕ} (hodd : n % 2 = 1) (sq : ℕ → ℕ → ℝ)
    (hsym : ∀ k1 k2, k1 < n → k2 < n →
      sq ((n - k1) % n) ((n - k2) % n) = sq k1 k2) :
    ∑ k1 in Finset.range n, ∑ k2 in Finset.range n, sq k1 k2 =
      2 * (∑ k1 in Finset.range n, ∑ k2 in Finset.range (n / 2 + 1),
        sq k1 k2) - ∑ k1 in Finset.range n, sq k1 0 := by
  have hn : 0 < n := by omega
  have hn2 : n = 2 * (n / 2) + 1 := by omega
  have hsplit1 : ∀ k1, ∑ k2 in Finset.range n, sq k1 k2 =
      (∑ k2 in Finset.range (n / 2 + 1), sq k1 k2) +
        ∑ k2 in Finset.Ico (n / 2 + 1) n, sq k1 k2 := by
    intro k1
    rw [Finset.range_eq_Ico,
      ← Finset.sum_Ico_consecutive (sq k1) (by omega : 0 ≤ n / 2 + 1)
        (by omega : n / 2 + 1 ≤ n), ← Finset.range_eq_Ico]
  have hsplit2 : ∀ k1, ∑ k2 in Finset.range (n / 2 + 1), sq k1 k2 =
      sq k1 0 + ∑ k2 in Finset.Ico 1 (n / 2 + 1), sq k1 k2 := by
    intro k1
    rw [Finset.range_eq_Ico,
      Finset.sum_eq_sum_Ico_succ_bot (by omega : 0 < n / 2 + 1) (sq k1)]
  have hbij : ∑ k1 in Finset.range n, ∑ k2 in Finset.Ico (n / 2 + 1) n,
      sq k1 k2 =
      ∑ k1 in Finset.range n, ∑ k2 in Finset.Ico 1 (n / 2 + 1), sq k1 k2 := by
    rw [← Finset.sum_product', ← Finset.sum_product']
    refine Finset.sum_nbij' (fun p => ((n - p.1) % n, n - p.2))
      (fun p => ((n - p.1) % n, n - p.2)) ?_ ?_ ?_ ?_ ?_
    · rintro ⟨k1, k2⟩ hp
      simp only [Finset.mem_product, Finset.mem_range, Finset.mem_Ico] at hp ⊢
      exact ⟨Nat.mod_lt _ hn, by omega⟩
    · rintro ⟨k1, k2⟩ hp
      simp only [Finset.mem_product, Finset.mem_range, Finset.mem_Ico] at hp ⊢
      exact ⟨Nat.mod_lt _ hn, by omega⟩
    · rintro ⟨k1, k2⟩ hp
      simp only [Finset.mem_product, Finset.mem_range, Finset.mem_Ico] at hp
      simp only [Prod.mk.injEq]
      exact ⟨negMod_invol hn hp.1, by omega⟩
    · rintro ⟨k1, k2⟩ hp
      simp only [Finset.mem_product, Finset.mem_range, Finset.mem_Ico] at hp
      simp only [Prod.mk.injEq]
      exact ⟨negMod_invol hn hp.1, by omega⟩
    · rintro ⟨k1, k2⟩ hp
      simp only [Finset.mem_product, Finset.mem_range, Finset.mem_Ico] at hp
      have hmod : (n - k2) % n = n - k2 := Nat.mod_eq_of_lt (by omega)
      have := hsym k1 k2 hp.1 (by omega)
      rw [hmod] at this
      exact this.symm
  calc ∑ k1 in Finset.range n, ∑ k2 in Finset.range n, sq k1 k2
      = (∑ k1 in Finset.range n, ∑ k2 in Finset.range (n / 2 + 1), sq k1 k2) +
        ∑ k1 in Finset.range n, ∑ k2 in Finset.Ico (n / 2 + 1) n, sq k1 k2 := by
        rw [← Finset.sum_add_distrib]
        exact Finset.sum_congr rfl fun k1 _ => hsplit1 k1
    _ = (∑ k1 in Finset.range n, ∑ k2 in Finset.range (n / 2 + 1), sq k1 k2) +
        ((∑ k1 in Finset.range n, ∑ k2 in Finset.range (n / 2 + 1), sq k1 k2) -
          ∑ k1 in Finset.range n, sq k1 0) := by
        rw [hbij]
        congr 1
        rw [← Finset.sum_sub_distrib]
        refine Finset.sum_congr rfl fun k1 _ => ?_
        rw [hsplit2 k1]
        ring
    _ = 2 * (∑ k1 in Finset.range n, ∑ k2 in Finset.range (n / 2 + 1),
          sq k1 k2) - ∑ k1 in Finset.range n, sq k1 0 := by ring

theorem rfftShape_snoc2 (b : Shape) (n1 n2 : ℕ) :
    rfftShape (b ++ [n1, n2]) = b ++ [n1, n2 / 2 + 1] := by
  unfold rfftShape
  rw [show b ++ [n1, n2] = (b ++ [n1]) ++ [n2] by simp, dropLast_snoc,
    getLastD_snoc, List.append_assoc]
  rfl

theorem reCast_eq_self {x : NDArray} (hreal : ∀ idx, (x.val idx).im = 0) :
    reCast x = x := by
  obtain ⟨s, v⟩ := x
  simp only [reCast, NDArray.mk.injEq, true_and]
  funext idx
  apply Complex.ext
  · simp
  · simpa using (hreal idx).symm

/-- C3 (amended): for every real-valued array whose last two (image) axes
have equal ODD length, `image_quad_norm (ufft2 x) = image_quad_norm
(urfft2 x)` per batch element.  (For even lengths the compact branch of
`image_quad_norm` double-counts the Nyquist column and the equality
fails.) -/
theorem quad_norm_full_eq_compact (x : NDArray) (b : Shape) (n : ℕ)
    (X Y : NDArray) (hreal : ∀ idx, (x.val idx).im = 0)
    (hs : x.shape = b ++ [n, n]) (hodd : n % 2 = 1)
    (hX : ufft2 x = Except.ok X) (hY : urfft2 x = Except.ok Y) :
    ∀ bidx : Idx, bidx.length = b.length →
      (image_quad_norm X).val bidx = (image_quad_norm Y).val bidx := by
  intro bidx hlen
  have hn : 0 < n := by omega
  have hL : x.shape.length = b.length + 2 := by rw [hs]; simp
  simp only [ufft2, ufftn, Option.getD_some] at hX
  split at hX
  · exact absurd hX (by simp)
  rw [Except.ok.injEq] at hX
  simp only [urfft2, urfftn, Option.getD_some] at hY
  split at hY
  · exact absurd hY (by simp)
  split at hY
  · exact absurd hY (by simp)
  rw [Except.ok.injEq] at hY
  have hXsh : X.shape = b ++ [n, n] := by
    rw [← hX]
    exact hs
  have hYsh : Y.shape = b ++ [n, n / 2 + 1] := by
    rw [← hY]
    show rfftShape x.shape = b ++ [n, n / 2 + 1]
    rw [hs, rfftShape_snoc2]
  have hXY : ∀ k1 k2 : ℕ, Y.val (bidx ++ [k1, k2]) = X.val (bidx ++ [k1, k2]) := by
    intro k1 k2
    rw [← hX, ← hY]
    show (rfftnLast x (2 : ℤ).toNat).val (bidx ++ [k1, k2]) / _ =
      (fftnLast x (2 : ℤ).toNat).val (bidx ++ [k1, k2]) / _
    rw [rfftnLast]
    dsimp only
    rw [reCast_eq_self hreal]
  have hXv : ∀ k1 k2 : ℕ, (fftnLast x (2 : ℤ).toNat).val (bidx ++ [k1, k2]) =
      dftRec [n, n] (fun c2 => x.val (bidx ++ c2)) [k1, k2] := by
    intro k1 k2
    show dftRec (x.shape.drop (x.shape.length - 2))
      (fun c => x.val ((bidx ++ [k1, k2]).take (x.shape.length - 2) ++ c))
      ((bidx ++ [k1, k2]).drop (x.shape.length - 2)) = _
    rw [show x.shape.length - 2 = b.length by omega]
    rw [take_append_exact bidx [k1, k2] b.length hlen,
      drop_append_exact bidx [k1, k2] b.length hlen,
      show x.shape.drop b.length = [n, n] by
        rw [hs]; exact drop_append_exact b [n, n] b.length rfl]
  have hXfull : ∀ k1 k2 : ℕ, X.val (bidx ++ [k1, k2]) =
      dftRec [n, n] (fun c2 => x.val (bidx ++ c2)) [k1, k2] /
        ((Real.sqrt ((pySliceFrom x.shape (-(2 : ℤ))).prod : ℝ) : ℝ) : ℂ) := by
    intro k1 k2
    rw [← hX]
    show (fftnLast x (2 : ℤ).toNat).val (bidx ++ [k1, k2]) / _ = _
    rw [hXv]
  obtain ⟨_, hXb⟩ := iqn_branches_aux X b n n hXsh hn hn
  obtain ⟨_, hYb⟩ := iqn_branches_aux Y b n (n / 2 + 1) hYsh hn (by omega)
  by_cases h1 : n = 1
  · subst h1
    rw [(hXb bidx).2 rfl, (hYb bidx).2 rfl]
    exact Finset.sum_congr rfl fun i _ => Finset.sum_congr rfl fun j _ => by
      rw [hXY]
  · have hne : n ≠ n / 2 + 1 := by omega
    rw [(hXb bidx).2 rfl, (hYb bidx).1 hne]
    rw [show (∑ i in Finset.range n, ∑ j in Finset.range (n / 2 + 1),
        ((Complex.abs (Y.val (bidx ++ [i, j])) ^ 2 : ℝ) : ℂ)) =
        ∑ i in Finset.range n, ∑ j in Finset.range (n / 2 + 1),
          ((Complex.abs (X.val (bidx ++ [i, j])) ^ 2 : ℝ) : ℂ) from
      Finset.sum_congr rfl fun i _ => Finset.sum_congr rfl fun j _ => by
        rw [hXY]]
    rw [show (∑ i in Finset.range n,
        ((Complex.abs (Y.val (bidx ++ [i, 0])) ^ 2 : ℝ) : ℂ)) =
        ∑ i in Finset.range n,
          ((Complex.abs (X.val (bidx ++ [i, 0])) ^ 2 : ℝ) : ℂ) from
      Finset.sum_congr rfl fun i _ => by rw [hXY]]
    have hsymm : ∀ k1 k2, k1 < n → k2 < n →
        Complex.abs (X.val (bidx ++ [(n - k1) % n, (n - k2) % n])) ^ 2 =
          Complex.abs (X.val (bidx ++ [k1, k2])) ^ 2 := by
      intro k1 k2 hk1 hk2
      rw [hXfull, hXfull,
        dft2_conj_symm hn (fun c2 => x.val (bidx ++ c2)) (fun c2 => hreal _)
          k1 k2 hk1 hk2,
        map_div₀, map_div₀, Complex.abs_conj]
    have key := odd_compact_sum hodd
      (fun k1 k2 => Complex.abs (X.val (bidx ++ [k1, k2])) ^ 2) hsymm
    exact_mod_cast key

/-- C3 witness at a concrete input (an odd 1×1 image). -/
theorem quad_norm_full_eq_compact_witness :
    ∃ X Y, ufft2 ones11 = Except.ok X ∧ urfft2 ones11 = Except.ok Y ∧
      (image_quad_norm X).val [] = (image_quad_norm Y).val [] := by
  refine ⟨_, _, rfl, rfl, ?_⟩
  exact quad_norm_full_eq_compact ones11 [] 1 _ _
    (fun idx => by simp [ones11]) rfl rfl rfl rfl [] rfl

/-- C3 counterexample: at the 4×4 unit impulse (even image size), the
quadratic norm of the full transform is `1` but the quadratic norm of the
compact real transform is `5/4` — the compact branch double-counts the
Nyquist column, so the claimed equality for ALL real arrays is false. -/
theorem quad_norm_even_counterexample :
    ∃ X Y, ufft2 delta44 = Except.ok X ∧ urfft2 delta44 = Except.ok Y ∧
      (image_quad_norm X).val [] = 1 ∧ (image_quad_norm Y).val [] = 5 / 4 ∧
      ¬ ((image_quad_norm X).val [] = (image_quad_norm Y).val []) := by
  have hreal : ∀ idx, ((delta44.val idx).im = 0) := by
    intro idx
    simp only [delta44]
    split <;> simp
  obtain ⟨X, hX⟩ : ∃ X, ufft2 delta44 = Except.ok X := ⟨_, rfl⟩
  obtain ⟨Y, hY⟩ : ∃ Y, urfft2 delta44 = Except.ok Y := ⟨_, rfl⟩
  have hXeq : X = (⟨[4, 4], fun idx => dftRec [4, 4] delta44.val idx /
      ((Real.sqrt (((16 : ℕ)) : ℝ) : ℝ) : ℂ)⟩ : NDArray) :=
    Except.ok.inj (hX.symm.trans rfl)
  have hYeq : Y = (⟨[4, 3], fun idx => dftRec [4, 4] (reCast delta44).val idx /
      ((Real.sqrt (((16 : ℕ)) : ℝ) : ℝ) : ℂ)⟩ : NDArray) :=
    Except.ok.inj (hY.symm.trans rfl)
  have hdft : ∀ idx : Idx, dftRec [4, 4] delta44.val idx = 1 := by
    intro idx
    simp only [dftRec]
    rw [Finset.sum_eq_single 0
      (fun j1 _ hj1 => by
        rw [Finset.sum_eq_zero fun j2 _ => by simp [delta44, hj1], mul_zero])
      (fun h => absurd (Finset.mem_range.mpr (by norm_num)) h)]
    rw [Finset.sum_eq_single 0
      (fun j2 _ hj2 => by simp [delta44, hj2])
      (fun h => absurd (Finset.mem_range.mpr (by norm_num)) h)]
    simp [delta44]
  have hcc : (Real.sqrt (((16 : ℕ)) : ℝ) : ℂ) = 4 := by
    have h2 : (((16 : ℕ)) : ℝ) = (4 : ℝ) ^ 2 := by norm_num
    rw [h2, Real.sqrt_sq (by norm_num : (0 : ℝ) ≤ 4)]
    norm_num
  have hXval : ∀ idx, X.val idx = 1 / 4 := by
    intro idx
    rw [hXeq]
    show dftRec [4, 4] delta44.val idx / _ = 1 / 4
    rw [hdft, hcc]
  have hYval : ∀ idx, Y.val idx = 1 / 4 := by
    intro idx
    rw [hYeq]
    show dftRec [4, 4] (reCast delta44).val idx / _ = 1 / 4
    rw [reCast_eq_self hreal, hdft, hcc]
  have habs : (Complex.abs ((1 : ℂ) / 4) ^ 2 : ℝ) = 1 / 16 := by
    rw [map_div₀]
    simp [Complex.abs_ofNat]
    norm_num
  obtain ⟨_, hXb⟩ := iqn_branches_aux X [] 4 4 (by rw [hXeq]; rfl)
    (by norm_num) (by norm_num)
  obtain ⟨_, hYb⟩ := iqn_branches_aux Y [] 4 3 (by rw [hYeq]; rfl)
    (by norm_num) (by norm_num)
  have hXone : (image_quad_norm X).val [] = 1 := by
    rw [(hXb []).2 rfl]
    simp only [hXval, habs, Finset.sum_const, Finset.card_range, nsmul_eq_mul]
    push_cast
    norm_num
  have hYfive : (image_quad_norm Y).val [] = 5 / 4 := by
    rw [(hYb []).1 (by norm_num)]
    simp only [hYval, habs, Finset.sum_const, Finset.card_range, nsmul_eq_mul]
    push_cast
    norm_num
  exact ⟨X, Y, hX, hY, hXone, hYfive, by rw [hXone, hYfive]; norm_num⟩

theorem getD_set_self (l : List ℕ) (p v : ℕ) (hp : p < l.length) :
    (l.set p v).getD p 0 = v := by
  induction l generalizing p with
  | nil => simp at hp
  | cons a l ih =>
    cases p with
    | zero => rfl
    | succ p => exact ih p (by simpa using hp)

theorem getD_set_other (l : List ℕ) (q p v : ℕ) (h : q ≠ p) :
    (l.set q v).getD p 0 = l.getD p 0 := by
  induction l generalizing q p with
  | nil => rfl
  | cons a l ih =>
    cases q with
    | zero =>
      cases p with
      | zero => exact absurd rfl h
      | succ p => rfl
    | succ q =>
      cases p with
      | zero => rfl
      | succ p => exact ih q p (fun hh => h (congrArg Nat.succ hh))

theorem rollIdxMap_length (L : List ℕ) (f : ℕ → ℕ) (s : Shape) (j : Idx) :
    (rollIdxMap L f s j).length = j.length := by
  induction L with
  | nil => rfl
  | cons ax L ih => simp [rollIdxMap, List.length_set, ih]

theorem rollIdxMap_getD (L : List ℕ) (f : ℕ → ℕ) (s : Shape) (j : Idx)
    (p : ℕ) (hp : p < j.length) :
    L.Nodup →
      (rollIdxMap L f s j).getD p 0 =
        if p ∈ L then (j.getD p 0 + f p) % s.getD p 0 else j.getD p 0 := by
  induction L with
  | nil => intro _; simp [rollIdxMap]
  | cons ax L ih =>
    intro hdup
    obtain ⟨hax, hnd⟩ := List.nodup_cons.mp hdup
    show ((rollIdxMap L f s j).set ax _).getD p 0 = _
    by_cases hpax : p = ax
    · subst hpax
      rw [getD_set_self _ _ _ (by rw [rollIdxMap_length]; exact hp)]
      rw [ih hnd, if_neg hax, if_pos (List.mem_cons_self _ _)]
    · rw [getD_set_other _ _ _ _ (fun hh => hpax hh.symm)]
      rw [ih hnd]
      simp [List.mem_cons, hpax]

theorem shiftIdx_getD : ∀ (j : Idx) (s t : Shape) (p : ℕ), p < j.length →
    j.length = s.length → s.length = t.length →
    (shiftIdx j s t).getD p 0 = (j.getD p 0 + s.getD p 0 / 2) % t.getD p 0 := by
  intro j
  induction j with
  | nil =>
    intro s t p hp
    simp at hp
  | cons jh jt ih =>
    intro s t p hp hjs hst
    cases s with
    | nil => simp at hjs
    | cons sh st =>
      cases t with
      | nil => simp at hst
      | cons th tt =>
        cases p with
        | zero => rfl
        | succ p =>
          exact ih st tt p (by simpa using hp) (by simpa using hjs)
            (by simpa using hst)

theorem shiftIdx_length (j : Idx) (s t : Shape) (hjs : j.length = s.length)
    (hst : s.length = t.length) : (shiftIdx j s t).length = j.length := by
  unfold shiftIdx
  rw [List.length_zipWith, List.length_zip]
  omega

theorem ext_of_getD : ∀ (l1 l2 : List ℕ), l1.length = l2.length →
    (∀ p, p < l1.length → l1.getD p 0 = l2.getD p 0) → l1 = l2 := by
  intro l1
  induction l1 with
  | nil =>
    intro l2 hl _
    cases l2 with
    | nil => rfl
    | cons b l2 => simp at hl
  | cons a l ih =>
    intro l2 hl h
    cases l2 with
    | nil => simp at hl
    | cons b l2 =>
      have h0 : a = b := h 0 (by simp)
      have hrest : l = l2 :=
        ih l2 (by simpa using hl) (fun p hp => h (p + 1) (by simpa using hp))
      rw [h0, hrest]

theorem rollIdxMap_range_eq_shiftIdx (s t : Shape) (j : Idx)
    (hjs : j.length = s.length) (hst : s.length = t.length) :
    rollIdxMap (List.range s.length) (fun axis => s.getD axis 0 / 2) t j =
      shiftIdx j s t := by
  apply ext_of_getD
  · rw [rollIdxMap_length, shiftIdx_length j s t hjs hst]
  · intro p hp
    rw [rollIdxMap_length] at hp
    rw [rollIdxMap_getD (List.range s.length) _ t j p hp (List.nodup_range _),
      shiftIdx_getD j s t p hp hjs hst]
    rw [if_pos (List.mem_range.mpr (by omega))]

theorem foldl_roll_val (L : List ℕ) (f : ℕ → ℕ) :
    ∀ (a : NDArray) (j : Idx),
      (L.foldl (fun arr axis => rollAxis arr axis (f axis)) a).val j =
        a.val (rollIdxMap L f a.shape j) := by
  induction L with
  | nil => intro a j; rfl
  | cons ax L ih =>
    intro a j
    rw [List.foldl_cons, ih (rollAxis a ax (f ax)) j]
    rfl

theorem rollAll_shape (a : NDArray) (impShape : Shape) (d : ℤ) :
    (rollAll a impShape d).shape = a.shape := by
  unfold rollAll
  generalize List.range impShape.length = L
  induction L generalizing a with
  | nil => rfl
  | cons ax L ih =>
    rw [List.foldl_cons, ih]
    split <;> rfl

theorem rollAll_eq_foldl (a : NDArray) (impShape : Shape) (d : ℤ)
    (hcond : (impShape.length : ℤ) - d ≤ 0) :
    rollAll a impShape d =
      (List.range impShape.length).foldl
        (fun arr axis => rollAxis arr axis (impShape.getD axis 0 / 2)) a := by
  unfold rollAll
  suffices h : ∀ (L : List ℕ) (a : NDArray),
      L.foldl (fun arr (axis : ℕ) =>
        if (axis : ℤ) ≥ (impShape.length : ℤ) - d then
          rollAxis arr axis (impShape.getD axis 0 / 2)
        else arr) a =
      L.foldl (fun arr axis =>
        rollAxis arr axis (impShape.getD axis 0 / 2)) a from h _ a
  intro L
  induction L with
  | nil => intro a; rfl
  | cons ax L ih =>
    intro a
    rw [List.foldl_cons, List.foldl_cons, if_pos (by omega), ih]

theorem broadcastOK_self (s : Shape) : broadcastOK s s = true := by
  unfold broadcastOK
  rw [Nat.sub_self, List.drop_zero]
  simp [List.all_eq_true, List.zipWith_same]

theorem zip_collapse : ∀ {s : Shape} {idx : Idx}, inBounds idx s →
    List.zipWith (fun sp ip => if sp = 1 then 0 else ip) s idx = idx := by
  intro s
  induction s with
  | nil =>
    intro idx h
    rw [inBounds_nil_right.mp h]
    rfl
  | cons n ns ih =>
    intro idx h
    cases idx with
    | nil => exact absurd h inBounds_nil_left
    | cons i ir =>
      obtain ⟨h1, h2⟩ := inBounds_cons.mp h
      show (if n = 1 then 0 else i) :: _ = i :: ir
      rw [ih h2]
      congr 1
      split
      · omega
      · rfl

theorem broadcastSrcIdx_of_inBounds {s : Shape} {idx : Idx}
    (h : inBounds idx s) : broadcastSrcIdx s idx = idx := by
  unfold broadcastSrcIdx
  rw [inBounds_length h, Nat.sub_self, List.drop_zero]
  exact zip_collapse h

theorem sliceRegion_of_fits : ∀ {s t : Shape}, List.Forall₂ (· ≤ ·) s t →
    sliceRegion s t = s := by
  intro s t h
  induction h with
  | nil => rfl
  | cons hab h2 ih =>
    rename_i a b l1 l2
    simp only [sliceRegion, List.zipWith_cons_cons, List.length_cons,
      List.drop_succ_cons, List.cons_append]
    rw [min_eq_left hab]
    simp only [sliceRegion] at ih
    rw [ih]

theorem padToCorner_fits {imp : NDArray} {target : Shape}
    (hfit : List.Forall₂ (· ≤ ·) imp.shape target) :
    padToCorner imp target = Except.ok
      ⟨target, fun idx => if inBoundsB idx imp.shape then
          (((imp.val idx).re : ℝ) : ℂ) else 0⟩ := by
  have hreg : sliceRegion imp.shape target = imp.shape := sliceRegion_of_fits hfit
  have hlen : imp.shape.length = target.length := List.Forall₂.length_eq hfit
  unfold padToCorner
  rw [if_neg (by omega), hreg,
    if_neg (by simp [broadcastOK_self])]
  congr 1
  refine congrArg _ (funext fun idx => ?_)
  by_cases hb : inBoundsB idx imp.shape = true
  · rw [if_pos hb, if_pos hb, broadcastSrcIdx_of_inBounds hb]
  · rw [if_neg hb, if_neg hb]

theorem padToCorner_shape {imp : NDArray} {target : Shape} {p : NDArray}
    (h : padToCorner imp target = Except.ok p) : p.shape = target := by
  unfold padToCorner at h
  split at h
  · exact absurd h (by simp)
  split at h
  · exact absurd h (by simp)
  rw [Except.ok.injEq] at h
  rw [← h]

theorem except_ok_bind {α β : Type} (a : α) (f : α → Except UftErr β) :
    (Except.ok a >>= f) = f a := rfl

theorem rolled_padded_val (imp : NDArray) (target : Shape)
    (hfit : List.Forall₂ (· ≤ ·) imp.shape target) (d : ℤ)
    (hd : (imp.shape.length : ℤ) - d ≤ 0)
    (padded : NDArray) (hpad : padToCorner imp target = Except.ok padded) :
    ∀ j : Idx, j.length = target.length →
      (rollAll padded imp.shape d).val j =
        if inBoundsB (shiftIdx j imp.shape target) imp.shape then
          (((imp.val (shiftIdx j imp.shape target)).re : ℝ) : ℂ)
        else 0 := by
  intro j hj
  have hlen : imp.shape.length = target.length := List.Forall₂.length_eq hfit
  rw [padToCorner_fits hfit] at hpad
  have hpadded := Except.ok.inj hpad
  have hpsh : padded.shape = target := by rw [← hpadded]
  rw [rollAll_eq_foldl padded imp.shape d hd, foldl_roll_val, hpsh,
    rollIdxMap_range_eq_shiftIdx imp.shape target j (by omega) hlen,
    ← hpadded]

theorem ir2tf_ok_aux (imp : NDArray) (target : Shape) (dim : Option ℤ)
    (is_real : Bool) (hfit : List.Forall₂ (· ≤ ·) imp.shape target)
    (hd : ir2tfDim dim imp.shape.length = (imp.shape.length : ℤ))
    (hpos : 0 < imp.shape.length) :
    ∃ A, ir2tf imp target dim is_real = Except.ok A ∧
      A.shape = (if is_real then rfftShape target else target) ∧
      ∀ k, A.val k =
        dftRec target
          (fun j => if inBoundsB (shiftIdx j imp.shape target) imp.shape then
            (((imp.val (shiftIdx j imp.shape target)).re : ℝ) : ℂ)
          else 0) k := by
  have hlen : imp.shape.length = target.length := List.Forall₂.length_eq hfit
  have hpad := padToCorner_fits hfit
  set padded : NDArray :=
    (⟨target, fun idx => if inBoundsB idx imp.shape then
      (((imp.val idx).re : ℝ) : ℂ) else 0⟩ : NDArray) with hpdef
  set rolled := rollAll padded imp.shape (ir2tfDim dim imp.shape.length)
    with hrdef
  have hrsh : rolled.shape = target := by
    rw [hrdef, rollAll_shape]
  have hbuf : ∀ c : Idx, inBounds c target →
      rolled.val c =
        if inBoundsB (shiftIdx c imp.shape target) imp.shape then
          (((imp.val (shiftIdx c imp.shape target)).re : ℝ) : ℂ)
        else 0 := by
    intro c hc
    rw [hrdef]
    exact rolled_padded_val imp target hfit _ (by rw [hd]; omega) padded hpad
      c (by rw [inBounds_length hc])
  have hir : ir2tf imp target dim is_real =
      (if is_real then
        if (ir2tfDim dim imp.shape.length) > ((rolled.shape.length : ℕ) : ℤ) then
          Except.error UftErr.axisOutOfBounds
        else if (ir2tfDim dim imp.shape.length) ≤ 0 then
          Except.error UftErr.emptyAxes
        else
          Except.ok (rfftnLast rolled (ir2tfDim dim imp.shape.length).toNat)
      else
        if (ir2tfDim dim imp.shape.length) > ((rolled.shape.length : ℕ) : ℤ) then
          Except.error UftErr.axisOutOfBounds
        else
          Except.ok (fftnLast rolled (ir2tfDim dim imp.shape.length).toNat)) := by
    simp only [ir2tf]
    rw [hpad, except_ok_bind]
  rw [hd, hrsh] at hir
  have htoNat : ((imp.shape.length : ℤ)).toNat = imp.shape.length :=
    Int.toNat_natCast _
  cases is_real with
  | true =>
    rw [if_pos rfl, if_neg (by omega), if_neg (by omega)] at hir
    rw [htoNat] at hir
    refine ⟨_, hir, ?_, ?_⟩
    · show rfftShape rolled.shape = _
      rw [hrsh, if_pos rfl]
    · intro k
      show (fftnLast (reCast rolled) imp.shape.length).val k = _
      simp only [fftnLast, reCast]
      rw [hrsh, show target.length - imp.shape.length = 0 by omega]
      simp only [List.drop_zero, List.take_zero, List.nil_append]
      refine dftRec_congr (fun c hc => ?_) k
      rw [hbuf c hc]
      split
      · simp
      · simp
  | false =>
    rw [if_neg (by simp), if_neg (by omega)] at hir
    rw [htoNat] at hir
    refine ⟨_, hir, ?_, ?_⟩
    · show rolled.shape = _
      rw [hrsh, if_neg (by simp)]
    · intro k
      show (fftnLast rolled imp.shape.length).val k = _
      simp only [fftnLast]
      rw [hrsh, show target.length - imp.shape.length = 0 by omega]
      simp only [List.drop_zero, List.take_zero, List.nil_append]
      exact dftRec_congr (fun c hc => hbuf c hc) k

theorem except_error_bind {α β : Type} (e : UftErr)
    (f : α → Except UftErr β) : (Except.error e >>= f) = Except.error e := rfl

/-- C9: in the non-batched case (rank = dim = length of targetShape, every
extent fitting), `ir2tf` is the transform of the buffer obtained by copying
the impulse response into the origin corner of a zero array of shape
`targetShape` and then circularly shifting every axis by
`-floor(originalExtent / 2)` — the shift uses the ORIGINAL impulse-response
extent, for even and odd extents alike: the value read at index `j` comes
from coordinate `(j_p + s_p / 2) % t_p`, and is the impulse response there
when that landed inside it, `0` otherwise. -/
theorem ir2tf_pad_roll_characterization (imp : NDArray) (target : Shape)
    (dim : Option ℤ) (is_real : Bool)
    (hfit : List.Forall₂ (· ≤ ·) imp.shape target)
    (hd : ir2tfDim dim imp.shape.length = (imp.shape.length : ℤ))
    (hpos : 0 < imp.shape.length) :
    ∃ A, ir2tf imp target dim is_real = Except.ok A ∧
      A.shape = (if is_real then rfftShape target else target) ∧
      ∀ k, A.val k =
        dftRec target
          (fun j => if inBoundsB (shiftIdx j imp.shape target) imp.shape then
            (((imp.val (shiftIdx j imp.shape target)).re : ℝ) : ℂ)
          else 0) k :=
  ir2tf_ok_aux imp target dim is_real hfit hd hpos

/-- C9 witness at a concrete input. -/
theorem ir2tf_pad_roll_characterization_witness :
    ∃ A, ir2tf ones22 [2, 2] none true = Except.ok A ∧
      A.shape = (if true then rfftShape [2, 2] else [2, 2]) ∧
      ∀ k, A.val k =
        dftRec [2, 2]
          (fun j => if inBoundsB (shiftIdx j ones22.shape [2, 2]) ones22.shape
            then (((ones22.val (shiftIdx j ones22.shape [2, 2])).re : ℝ) : ℂ)
          else 0) k :=
  ir2tf_pad_roll_characterization ones22 [2, 2] none true
    (List.Forall₂.cons (le_refl 2)
      (List.Forall₂.cons (le_refl 2) List.Forall₂.nil)) rfl (by decide)

theorem ir2tf_ones22_eval :
    ∃ A, ir2tf ones22 [2, 2] none true = Except.ok A ∧ A.shape = [2, 2] ∧
      A.val [0, 0] = 4 ∧ A.val [0, 1] = 0 ∧ A.val [1, 0] = 0 ∧
      A.val [1, 1] = 0 := by
  obtain ⟨A, hok, hsh, hval⟩ := ir2tf_ok_aux ones22 [2, 2] none true
    (List.Forall₂.cons (le_refl 2)
      (List.Forall₂.cons (le_refl 2) List.Forall₂.nil)) rfl (by decide)
  have hone : ∀ j1 j2 : ℕ, j1 < 2 → j2 < 2 →
      (if inBoundsB (shiftIdx [j1, j2] ones22.shape [2, 2]) ones22.shape
        then (((ones22.val (shiftIdx [j1, j2] ones22.shape [2, 2])).re : ℝ) : ℂ)
        else 0) = 1 := by
    intro j1 j2 h1 h2
    have hsft : shiftIdx [j1, j2] ones22.shape [2, 2] =
        [(j1 + 1) % 2, (j2 + 1) % 2] := rfl
    have hin : inBoundsB [(j1 + 1) % 2, (j2 + 1) % 2] ones22.shape = true := by
      show inBoundsB [(j1 + 1) % 2, (j2 + 1) % 2] [2, 2] = true
      simp [inBoundsB, Nat.mod_lt]
    simp only [hsft, hin, if_pos]
    simp [ones22]
  have hv : ∀ k1 k2 : ℕ, A.val [k1, k2] =
      ∑ j1 in Finset.range 2, ∑ j2 in Finset.range 2,
        wroot 2 ^ (j1 * k1) * wroot 2 ^ (j2 * k2) := by
    intro k1 k2
    rw [hval [k1, k2], dftRec_two]
    refine Finset.sum_congr rfl fun j1 hj1 => Finset.sum_congr rfl fun j2 hj2 => ?_
    rw [hone j1 j2 (Finset.mem_range.mp hj1) (Finset.mem_range.mp hj2),
      mul_one]
  refine ⟨A, hok, by rw [hsh]; rfl, ?_, ?_, ?_, ?_⟩ <;>
    rw [hv] <;>
    simp [Finset.sum_range_succ, wroot_two] <;>
    ring

/-- C2: `ir2tf(np.ones((2, 2)), (2, 2))` with the default `is_real=True`
returns exactly the 2×2 array `[[4, 0], [0, 0]]`. -/
theorem ir2tf_ones22_exact :
    ∃ A, ir2tf ones22 [2, 2] none true = Except.ok A ∧ A.shape = [2, 2] ∧
      A.val [0, 0] = 4 ∧ A.val [0, 1] = 0 ∧ A.val [1, 0] = 0 ∧
      A.val [1, 1] = 0 :=
  ir2tf_ones22_eval

theorem ir2tf_vs_spec_aux (imp : NDArray) (target : Shape) (dim : Option ℤ)
    (isr : Bool) (A B : NDArray) (htpos : ∀ t ∈ target, 0 < t)
    (hA : ir2tf imp target dim isr = Except.ok A)
    (hB : ir2tfSpec imp target dim isr = Except.ok B) :
    ∀ k, A.val k =
      ((Real.sqrt ((pySliceFrom target
          (-(ir2tfDim dim imp.shape.length))).prod : ℝ) : ℝ) : ℂ) * B.val k := by
  intro k
  rcases hpad : padToCorner imp target with e | padded
  · simp only [ir2tf] at hA
    rw [hpad, except_error_bind] at hA
    exact absurd hA (by simp)
  simp only [ir2tf] at hA
  simp only [ir2tfSpec] at hB
  rw [hpad, except_ok_bind] at hA hB
  set d := ir2tfDim dim imp.shape.length with hddef
  set rolled := rollAll padded imp.shape d with hrdef
  have hrsh : rolled.shape = target := by
    rw [hrdef, rollAll_shape]
    exact padToCorner_shape hpad
  have hcc : ((Real.sqrt ((pySliceFrom target (-d)).prod : ℝ) : ℝ) : ℂ) ≠ 0 := by
    rw [Complex.ofReal_ne_zero]
    refine (Real.sqrt_pos.mpr ?_).ne'
    have hp : 0 < (pySliceFrom target (-d)).prod :=
      List.prod_pos fun t ht => htpos t (pySliceFrom_subset target (-d) ht)
    exact_mod_cast hp
  cases isr with
  | true =>
    rw [if_pos rfl] at hA hB
    simp only [urfftn, Option.getD_some] at hB
    rw [hrsh] at hA hB
    split at hA
    · exact absurd hA (by simp)
    split at hA
    · exact absurd hA (by simp)
    rw [Except.ok.injEq] at hA
    subst hA
    rename_i hc1 hc2
    rw [if_neg hc1, if_neg hc2, Except.ok.injEq] at hB
    subst hB
    show _ = _ * ((rfftnLast rolled d.toNat).val k /
      ((Real.sqrt ((pySliceFrom target (-d)).prod : ℝ) : ℝ) : ℂ))
    rw [mul_comm, div_mul_cancel₀ _ hcc]
  | false =>
    rw [if_neg (by simp)] at hA hB
    simp only [ufftn, Option.getD_some] at hB
    rw [hrsh] at hA hB
    split at hA
    · exact absurd hA (by simp)
    rw [Except.ok.injEq] at hA
    subst hA
    rename_i hc1
    rw [if_neg hc1, Except.ok.injEq] at hB
    subst hB
    show _ = _ * ((fftnLast rolled d.toNat).val k /
      ((Real.sqrt ((pySliceFrom target (-d)).prod : ℝ) : ℝ) : ℂ))
    rw [mul_comm, div_mul_cancel₀ _ hcc]

/-- C1 (amended): the final step of `ir2tf` is the UNNORMALIZED
`np.fft.rfftn`/`np.fft.fftn` — the returned transfer function equals
`sqrt(product of transformed axis lengths)` times the unitary transform of
the padded-and-rolled array, not the unitary transform itself. -/
theorem ir2tf_unnormalized (imp : NDArray) (target : Shape) (dim : Option ℤ)
    (isr : Bool) (A B : NDArray) (htpos : ∀ t ∈ target, 0 < t)
    (hA : ir2tf imp target dim isr = Except.ok A)
    (hB : ir2tfSpec imp target dim isr = Except.ok B) :
    ∀ k, A.val k =
      ((Real.sqrt ((pySliceFrom target
          (-(ir2tfDim dim imp.shape.length))).prod : ℝ) : ℝ) : ℂ) * B.val k :=
  ir2tf_vs_spec_aux imp target dim isr A B htpos hA hB

/-- C1 counterexample: at `ones((2,2))` with target `(2,2)`, `ir2tf`
returns `4` at DC while the spec's unitary-transform version returns `2`,
so the returned transfer function is NOT the unitary transform of the
padded-and-rolled array. -/
theorem ir2tf_not_unitary_counterexample :
    ∃ A B, ir2tf ones22 [2, 2] none true = Except.ok A ∧
      ir2tfSpec ones22 [2, 2] none true = Except.ok B ∧
      A.val [0, 0] = 4 ∧ B.val [0, 0] = 2 ∧
      ¬ (A.val [0, 0] = B.val [0, 0]) := by
  obtain ⟨A, hok, hsh, h00, h01, h10, h11⟩ := ir2tf_ones22_eval
  obtain ⟨B, hB⟩ : ∃ B, ir2tfSpec ones22 [2, 2] none true = Except.ok B :=
    ⟨_, rfl⟩
  have hrel := ir2tf_vs_spec_aux ones22 [2, 2] none true A B (by decide)
    hok hB [0, 0]
  have hP : ((Real.sqrt ((pySliceFrom ([2, 2] : Shape)
      (-(ir2tfDim none ones22.shape.length))).prod : ℝ) : ℝ) : ℂ) = 2 := by
    have h1 : pySliceFrom ([2, 2] : Shape)
        (-(ir2tfDim none ones22.shape.length)) = [2, 2] := rfl
    rw [h1]
    have h2 : ((([2, 2] : Shape).prod : ℕ) : ℝ) = (2 : ℝ) ^ 2 := by norm_num
    rw [h2, Real.sqrt_sq (by norm_num : (0 : ℝ) ≤ 2)]
    norm_num
  rw [h00, hP] at hrel
  have hB00 : B.val [0, 0] = 2 := by
    have h4 : (2 : ℂ) * B.val [0, 0] = 2 * 2 := by
      rw [← hrel]
      norm_num
    exact mul_left_cancel₀ two_ne_zero h4
  exact ⟨A, B, hok, hB, h00, hB00, by rw [h00, hB00]; norm_num⟩

/-- C1 witness at a concrete input. -/
theorem ir2tf_unnormalized_witness :
    ∃ A B, ir2tf ones22 [2, 2] none true = Except.ok A ∧
      ir2tfSpec ones22 [2, 2] none true = Except.ok B ∧
      A.val [0, 0] =
        ((Real.sqrt ((pySliceFrom ([2, 2] : Shape)
          (-(ir2tfDim none ones22.shape.length))).prod : ℝ) : ℝ) : ℂ) *
          B.val [0, 0] := by
  obtain ⟨A, hA⟩ : ∃ A, ir2tf ones22 [2, 2] none true = Except.ok A := ⟨_, rfl⟩
  obtain ⟨B, hB⟩ : ∃ B, ir2tfSpec ones22 [2, 2] none true = Except.ok B :=
    ⟨_, rfl⟩
  exact ⟨A, B, hA, hB,
    ir2tf_unnormalized ones22 [2, 2] none true A B (by decide) hA hB [0, 0]⟩

/-- C4 (amended): `ir2tf` allocates its zero buffer with shape exactly
`targetShape` — no batch prefixing.  When the impulse response has more
axes than `targetShape`, the corner assignment fails with a
too-many-indices error; whenever `ir2tf` succeeds its output shape is
exactly `targetShape`, except that the last axis becomes
`floor(last / 2) + 1` when `is_real` (so batched use requires `targetShape`
itself to include the batch axes). -/
theorem ir2tf_shape_exact (imp : NDArray) (target : Shape)
    (dim : Option ℤ) (isr : Bool) :
    (imp.shape.length > target.length →
      ir2tf imp target dim isr = Except.error UftErr.tooManyIndices) ∧
    ∀ A, ir2tf imp target dim isr = Except.ok A →
      A.shape = (if isr then rfftShape target else target) := by
  constructor
  · intro hgt
    have hpe : padToCorner imp target = Except.error UftErr.tooManyIndices := by
      unfold padToCorner
      rw [if_pos hgt]
    simp only [ir2tf]
    rw [hpe, except_error_bind]
  · intro A hA
    simp only [ir2tf] at hA
    rcases hpad : padToCorner imp target with e | padded
    · rw [hpad, except_error_bind] at hA
      exact absurd hA (by simp)
    rw [hpad, except_ok_bind] at hA
    set d := ir2tfDim dim imp.shape.length
    set rolled := rollAll padded imp.shape d with hrdef
    have hrsh : rolled.shape = target := by
      rw [hrdef, rollAll_shape]
      exact padToCorner_shape hpad
    cases isr with
    | true =>
      rw [if_pos rfl] at hA
      split at hA
      · exact absurd hA (by simp)
      split at hA
      · exact absurd hA (by simp)
      rw [Except.ok.injEq] at hA
      rw [← hA]
      show rfftShape rolled.shape = _
      rw [hrsh, if_pos rfl]
    | false =>
      rw [if_neg (by simp)] at hA
      split at hA
      · exact absurd hA (by simp)
      rw [Except.ok.injEq] at hA
      rw [← hA]
      show rolled.shape = _
      rw [hrsh, if_neg (by simp)]

/-- C4 counterexample: a batched impulse response (rank 3, dim 2) with a
spatial-only target shape makes `ir2tf` fail with a too-many-indices error
instead of allocating a batch-prefixed buffer and returning a batched
transfer function. -/
theorem ir2tf_batched_fails_counterexample :
    ir2tf ones222 [4, 4] (some 2) true = Except.error UftErr.tooManyIndices :=
  rfl

/-- C4 witness at concrete inputs. -/
theorem ir2tf_shape_exact_witness :
    (ones222.shape.length > ([4, 4] : Shape).length ∧
      ir2tf ones222 [4, 4] (some 2) true =
        Except.error UftErr.tooManyIndices) ∧
    ∃ A, ir2tf ones22 [2, 2] none true = Except.ok A ∧
      A.shape = (if true then rfftShape [2, 2] else [2, 2]) := by
  refine ⟨⟨by decide,
    (ir2tf_shape_exact ones222 [4, 4] (some 2) true).1 (by decide)⟩, ?_⟩
  obtain ⟨A, hok⟩ : ∃ A, ir2tf ones22 [2, 2] none true = Except.ok A :=
    ⟨_, rfl⟩
  exact ⟨A, hok, (ir2tf_shape_exact ones22 [2, 2] none true).2 A hok⟩

/-- C10: `ir2tf` always transforms a real (`float64`) padded buffer — the
corner assignment keeps only the real part of the impulse response — so
even with `is_real = False` the result depends only on the real part of
the impulse response; the imaginary part never reaches the transform. -/
theorem ir2tf_uses_real_part_only (imp : NDArray) (target : Shape)
    (dim : Option ℤ) (isr : Bool) :
    ir2tf imp target dim isr = ir2tf (reCast imp) target dim isr := by
  have hpad : padToCorner imp target = padToCorner (reCast imp) target := by
    unfold padToCorner
    simp only [reCast, Complex.ofReal_re]
  unfold ir2tf
  rw [hpad]
  rfl
